import Mathlib

/-!
Verification of the session-state partitioning core of
`omnata-labs/streamlit-state-demo` (`src/widget_base.py`).

The development shallowly embeds the module:

* `st.session_state` (the StateStore) is an association list `Store` with
  Python-dict semantics: assignment replaces the first (only) binding in
  place, otherwise appends; lookup reads the first binding; `update`
  folds assignment over the items of the argument.
* values are the inductive `Val`; the persistence set
  (`_PERSIST_STATE_KEY = f"{__name__}_PERSIST"`, `__name__` is
  `widget_base`) is stored as a `Val.keySet` entry inside the store,
  exactly as the Python code keeps a `set` inside `st.session_state`.
* the module-level `used_key_prefixes : Set[str]` (the KeyRegistry) is a
  `List String` with set-like insertion.
* `WidgetBase.__init__`'s walk over `inspect.stack()` is embedded as a
  walk over a `List Frame`, where each `Frame` records exactly what the
  loop inspects: whether `"self"` is in `frame.frame.f_locals`, whether
  that receiver's class is a `WidgetBase` subclass, that class's name,
  whether it is a `BlendState` subclass, the (in CPython identically
  false) test `isinstance(frame_class, ABC)`, and whether the literal
  `"WidgetBase"` occurs in `frame.code_context[0]`.
* Python's decimal rendering of `sibling_index` in the f-string is
  `natRepr`.

Everything is executable, so concrete scenarios evaluate by `decide`.
-/

/-- Values stored in `st.session_state`.  `Val.none` is Python `None`
(which `_get_session_state` also uses as its absent sentinel);
`Val.keySet` is the `set` of keys kept under the persistence key. -/
inductive Val where
  | none : Val
  | int : Int → Val
  | str : String → Val
  | bool : Bool → Val
  | keySet : List String → Val
deriving DecidableEq

/-- The StateStore: `st.session_state` as an association list with
Python-dict semantics (unique keys, insertion order preserved). -/
abbrev Store := List (String × Val)

/-- Lookup, as Python `st.session_state[k]` / `k in st.session_state`
(first binding; stores built by assignment have unique keys). -/
def dictGet? : Store → String → Option Val
  | [], _ => Option.none
  | (k', v) :: rest, k => if k' = k then some v else dictGet? rest k

/-- Python `k in st.session_state`. -/
def dictContains (st : Store) (k : String) : Bool :=
  (dictGet? st k).isSome

/-- Python `st.session_state[k] = v`: replace the first binding of `k`
in place, else append (dict insertion-order semantics). -/
def dictSet : Store → String → Val → Store
  | [], k, v => [(k, v)]
  | (k', v') :: rest, k, v =>
      if k' = k then (k', v) :: rest else (k', v') :: dictSet rest k v

/-- Python `st.session_state.update(d)`: assign every item of `d`. -/
def dictUpdate (st : Store) (d : Store) : Store :=
  d.foldl (fun acc kv => dictSet acc kv.1 kv.2) st

/-- `_PERSIST_STATE_KEY = f"{__name__}_PERSIST"` with module name
`widget_base`. -/
def persistStateKey : String := "widget_base_PERSIST"

/-- Python `key in st.session_state[_PERSIST_STATE_KEY]`.  The code
maintains the persistence entry as a `set`; on any other value Python's
`in`/`add` would raise, which the embedding renders as `false` /
leave-unchanged. -/
def persistMem (st : Store) (k : String) : Bool :=
  match dictGet? st persistStateKey with
  | some (Val.keySet ks) => decide (k ∈ ks)
  | _ => false

/-- `WidgetBase.prepare`'s store half:
`if _PERSIST_STATE_KEY in st.session_state: st.session_state.update({
key: value for key, value in st.session_state.items() if key in
st.session_state[_PERSIST_STATE_KEY] })`. -/
def prepareStore (st : Store) : Store :=
  if dictContains st persistStateKey then
    dictUpdate st (st.filter (fun kv => persistMem st kv.1))
  else st

/-- `WidgetBase.prepare`'s registry half: `used_key_prefixes.clear()`. -/
def prepareRegistry (_r : List String) : List String := []

/-- `WidgetBase._full_key`: `f"{self._key_prefix}{key_name}"`. -/
def fullKey (pfx keyName : String) : String := pfx ++ keyName

/-- `WidgetBase._get_session_state`: `None` when the full key is absent,
else the stored value.  Total: it never raises. -/
def getState (st : Store) (pfx keyName : String) : Val :=
  match dictGet? st (fullKey pfx keyName) with
  | Option.none => Val.none
  | some v => v

/-- `WidgetBase._set_session_state`:
`st.session_state[self._full_key(key_name)] = value`. -/
def setState (st : Store) (pfx keyName : String) (v : Val) : Store :=
  dictSet st (fullKey pfx keyName) v

/-- Python `set.add` on the embedded key set. -/
def setAdd (l : List String) (x : String) : List String :=
  if x ∈ l then l else l ++ [x]

/-- `st.session_state[_PERSIST_STATE_KEY].add(full_key)`. -/
def persistAdd (st : Store) (k : String) : Store :=
  match dictGet? st persistStateKey with
  | some (Val.keySet ks) => dictSet st persistStateKey (Val.keySet (setAdd ks k))
  | _ => st

/-- The `if _PERSIST_STATE_KEY not in st.session_state:
st.session_state[_PERSIST_STATE_KEY] = set()` step. -/
def ensurePersistEntry (st : Store) : Store :=
  if dictContains st persistStateKey then st
  else dictSet st persistStateKey (Val.keySet [])

/-- One iteration of `_apply_session_state_defaults`'s loop for the pair
`(k, v)` whose full key is `fk`. -/
def applyOne (st : Store) (fk : String) (v : Val) : Store :=
  if dictContains st fk then st
  else dictSet (persistAdd (ensurePersistEntry st) fk) fk v

/-- `WidgetBase._apply_session_state_defaults` over the items of the
`defaults` dict (in order). -/
def applyDefaults (st : Store) (pfx : String) (defaults : List (String × Val)) : Store :=
  defaults.foldl (fun acc kv => applyOne acc (fullKey pfx kv.1) kv.2) st

/-! ### Decimal rendering of the sibling index

Python renders `sibling_index` in `f"...[{sibling_index}]..."` in
decimal; `natRepr` is that rendering (fuel-structured so that it
kernel-evaluates). -/

/-- The decimal digit character for `d < 10`. -/
def digitChar (d : Nat) : Char := Char.ofNat (48 + d)

/-- Decimal digits of `n`, most significant first; `fuel > n` suffices. -/
def natReprAux : Nat → Nat → List Char
  | 0, _ => []
  | fuel + 1, n =>
      if n < 10 then [digitChar n]
      else natReprAux fuel (n / 10) ++ [digitChar (n % 10)]

/-- Python's `str(n)` for a natural number. -/
def natRepr (n : Nat) : String := String.mk (natReprAux (n + 1) n)

/-! ### Prefix resolution (`WidgetBase.__init__`) -/

/-- The class of a frame's receiver, as far as the loop inspects it:
`frame_class.__name__` and whether `issubclass(frame_class, BlendState)`. -/
structure WClass where
  name : String
  isBlend : Bool
deriving DecidableEq

/-- One entry of `inspect.stack()`, abstracted to exactly the data the
loop in `WidgetBase.__init__` reads. -/
inductive Frame where
  /-- `"self" not in frame.frame.f_locals`: the iteration is skipped. -/
  | noSelf : Frame
  /-- `self` present and `issubclass(frame_class, WidgetBase)`;
  `isAbcInst` is `isinstance(frame_class, ABC)` (identically `False` in
  CPython for these classes) and `ctxHasWB` is
  `"WidgetBase" in frame.code_context[0]`. -/
  | widget : WClass → (isAbcInst : Bool) → (ctxHasWB : Bool) → Frame
  /-- `self` present but its class is not a `WidgetBase`: `break`. -/
  | nonWidget : Frame
deriving DecidableEq

/-- `True` iff the frame holds a `WidgetBase` receiver. -/
def isWidgetFrame : Frame → Bool
  | Frame.widget _ _ _ => true
  | _ => false

/-- `named_part`: `'' if named_instance is None or named_instance_used
is True else f"[{named_instance}]"`. -/
def namedPartOf (named : Option String) (used : Bool) : String :=
  match named with
  | Option.none => ""
  | some s => if used then "" else "[" ++ s ++ "]"

/-- The candidate
`f"{frame_class.__name__}{named_part}[{sibling_index}].{self._key_prefix}"`. -/
def candidateAt (clsName np pfx : String) (i : Nat) : String :=
  clsName ++ np ++ "[" ++ natRepr i ++ "]." ++ pfx

/-- Linear search of the `while ... in used_key_prefixes` loop, with
explicit fuel (the loop terminates because the registry is finite). -/
def findSibAux (reg : List String) (clsName np pfx : String) : Nat → Nat → Nat
  | 0, i => i
  | fuel + 1, i =>
      if candidateAt clsName np pfx i ∈ reg then
        findSibAux reg clsName np pfx fuel (i + 1)
      else i

/-- `sibling_index`: the smallest index whose candidate is not in
`used_key_prefixes` (fuel `reg.length + 1` always suffices). -/
def findSiblingIndex (reg : List String) (clsName np pfx : String) : Nat :=
  findSibAux reg clsName np pfx (reg.length + 1) 0

/-- `used_key_prefixes.add(p)`. -/
def regAdd (reg : List String) (p : String) : List String :=
  if p ∈ reg then reg else reg ++ [p]

/-- The `for frame in inspect.stack():` loop of `WidgetBase.__init__`,
threading `named_instance_used`, `self._key_prefix` and
`used_key_prefixes`; returns the resolved prefix and the registry. -/
def initLoop : List Frame → Option String → Bool → String → List String → String × List String
  | [], _, _, pfx, reg => (pfx, reg)
  | Frame.noSelf :: rest, named, used, pfx, reg => initLoop rest named used pfx reg
  | Frame.nonWidget :: _, _, _, pfx, reg => (pfx, reg)
  | Frame.widget cls isAbcInst ctxHasWB :: rest, named, used, pfx, reg =>
      if isAbcInst = false ∧ ctxHasWB = false then
        let np := namedPartOf named used
        if cls.isBlend then
          initLoop rest named true (cls.name ++ np) reg
        else
          let i := findSiblingIndex reg cls.name np pfx
          let newPfx := candidateAt cls.name np pfx i
          initLoop rest named true newPfx (regAdd reg newPfx)
      else initLoop rest named used pfx reg

/-- `WidgetBase.__init__(self, named_instance)`: starts from
`self._key_prefix = ""` and `named_instance_used = False`. -/
def widgetInit (stack : List Frame) (named : Option String) (reg : List String) :
    String × List String :=
  initLoop stack named false "" reg

/-- One widget construction during a pass: its `inspect.stack()`
abstraction and the `named_instance` argument. -/
structure Construction where
  stack : List Frame
  named : Option String
deriving DecidableEq

/-- Run one construction against the current registry. -/
def runConstr (reg : List String) (c : Construction) : String × List String :=
  widgetInit c.stack c.named reg

/-- Run a pass's constructions in order; returns the resolved prefixes
(in construction order) and the final registry. -/
def runPass : List Construction → List String → List String × List String
  | [], reg => ([], reg)
  | c :: cs, reg =>
      let pr := runConstr reg c
      let rest := runPass cs pr.2
      (pr.1 :: rest.1, rest.2)

/-! ### Association-list (dict) lemmas -/

theorem dictGet?_dictSet_self (st : Store) (k : String) (v : Val) :
    dictGet? (dictSet st k v) k = some v := by
  induction st with
  | nil => simp [dictSet, dictGet?]
  | cons kv rest ih =>
      obtain ⟨k', v'⟩ := kv
      by_cases h : k' = k <;> simp [dictSet, dictGet?, h, ih]

theorem dictGet?_dictSet_ne (st : Store) (k k' : String) (v : Val) (h : k' ≠ k) :
    dictGet? (dictSet st k v) k' = dictGet? st k' := by
  have hne : ¬(k = k') := fun he => h he.symm
  induction st with
  | nil => simp [dictSet, dictGet?, hne]
  | cons kv rest ih =>
      obtain ⟨k'', v''⟩ := kv
      by_cases h2 : k'' = k
      · subst h2
        simp [dictSet, dictGet?, hne]
      · by_cases h3 : k'' = k' <;> simp [dictSet, dictGet?, h2, h3, h, ih]

theorem dictSet_of_dictGet?_eq (st : Store) (k : String) (v : Val)
    (h : dictGet? st k = some v) : dictSet st k v = st := by
  induction st with
  | nil => simp [dictGet?] at h
  | cons kv rest ih =>
      obtain ⟨k', v'⟩ := kv
      by_cases h2 : k' = k
      · subst h2
        simp [dictGet?] at h
        simp [dictSet, h]
      · simp [dictGet?, h2] at h
        simp [dictSet, h2, ih h]

theorem dictContains_dictSet_self (st : Store) (k : String) (v : Val) :
    dictContains (dictSet st k v) k = true := by
  simp [dictContains, dictGet?_dictSet_self]

theorem dictContains_dictSet_mono (st : Store) (k k' : String) (v : Val)
    (h : dictContains st k' = true) : dictContains (dictSet st k v) k' = true := by
  by_cases h2 : k' = k
  · subst h2; exact dictContains_dictSet_self st k' v
  · simpa [dictContains, dictGet?_dictSet_ne st k k' v h2] using h

theorem dictUpdate_id (st : Store) (d : Store)
    (h : ∀ kv ∈ d, dictGet? st kv.1 = some kv.2) : dictUpdate st d = st := by
  induction d with
  | nil => rfl
  | cons kv rest ih =>
      have h1 : dictSet st kv.1 kv.2 = st :=
        dictSet_of_dictGet?_eq st kv.1 kv.2 (h kv (by simp))
      simp only [dictUpdate, List.foldl_cons, h1]
      exact ih (fun kv' hkv' => h kv' (by simp [hkv']))

theorem dictGet?_of_mem_nodup (st : Store) (kv : String × Val)
    (hnd : (st.map Prod.fst).Nodup) (hm : kv ∈ st) : dictGet? st kv.1 = some kv.2 := by
  induction st with
  | nil => simp at hm
  | cons kv' rest ih =>
      simp only [List.map_cons, List.nodup_cons] at hnd
      rcases List.mem_cons.mp hm with h | h
      · subst h; simp [dictGet?]
      · have hne : kv'.1 ≠ kv.1 := by
          intro he
          exact hnd.1 (he ▸ (List.mem_map.mpr ⟨kv, h, rfl⟩))
        obtain ⟨k', v'⟩ := kv'
        simp only [dictGet?]
        rw [if_neg hne]
        exact ih hnd.2 h

theorem dictContains_iff_mem_keys (st : Store) (k : String) :
    dictContains st k = true ↔ k ∈ st.map Prod.fst := by
  induction st with
  | nil => simp [dictContains, dictGet?]
  | cons kv rest ih =>
      obtain ⟨k2, v2⟩ := kv
      simp only [dictContains] at ih ⊢
      by_cases h : k2 = k
      · subst h; simp [dictGet?]
      · have hne : ¬(k = k2) := fun he => h he.symm
        simp [dictGet?, h, hne, ih]

theorem dictSet_keys (st : Store) (k : String) (v : Val) :
    (dictSet st k v).map Prod.fst =
      if dictContains st k then st.map Prod.fst else st.map Prod.fst ++ [k] := by
  induction st with
  | nil => simp [dictSet, dictContains, dictGet?]
  | cons kv rest ih =>
      obtain ⟨k2, v2⟩ := kv
      by_cases h2 : k2 = k
      · subst h2; simp [dictSet, dictContains, dictGet?]
      · simp only [dictSet, if_neg h2, List.map_cons, ih, dictContains, dictGet?, if_neg h2]
        by_cases h3 : (dictGet? rest k).isSome <;> simp [h3]

theorem dictSet_keys_nodup (st : Store) (k : String) (v : Val)
    (hnd : (st.map Prod.fst).Nodup) : ((dictSet st k v).map Prod.fst).Nodup := by
  rw [dictSet_keys]
  by_cases h : dictContains st k
  · simpa [h] using hnd
  · rw [if_neg h]
    have hk : k ∉ st.map Prod.fst := fun hm =>
      h ((dictContains_iff_mem_keys st k).mpr hm)
    simp [List.nodup_append, hnd, hk, List.disjoint_singleton]

/-! ### Properties of the decimal rendering -/

theorem natReprAux_fuel : ∀ f₁ f₂ n, n < f₁ → n < f₂ → natReprAux f₁ n = natReprAux f₂ n := by
  intro f₁
  induction f₁ with
  | zero => intro f₂ n h1; omega
  | succ a ih =>
      intro f₂ n h1 h2
      match f₂, h2 with
      | b + 1, h2 =>
        by_cases h : n < 10
        · simp [natReprAux, h]
        · have hd : n / 10 < n := Nat.div_lt_self (by omega) (by omega)
          have ha : n / 10 < a := by omega
          have hb : n / 10 < b := by omega
          simp only [natReprAux, if_neg h]
          rw [ih b (n / 10) ha hb]

theorem natReprAux_ne_nil : ∀ f n, n < f → natReprAux f n ≠ [] := by
  intro f
  induction f with
  | zero => intro n h; omega
  | succ a ih =>
      intro n h
      by_cases h10 : n < 10
      · simp [natReprAux, h10]
      · simp only [natReprAux, if_neg h10]
        exact fun he => by simp at he

theorem digitChar_inj : ∀ m, m < 10 → ∀ n, n < 10 → digitChar m = digitChar n → m = n := by
  decide

theorem natRepr_inj : ∀ m n, natRepr m = natRepr n → m = n := by
  intro m
  induction m using Nat.strong_induction_on with
  | _ m ih =>
      intro n h
      have hd : natReprAux (m + 1) m = natReprAux (n + 1) n := by
        have := congrArg String.data h
        simpa [natRepr] using this
      by_cases hm : m < 10 <;> by_cases hn : n < 10
      · simp only [natReprAux, if_pos hm, if_pos hn] at hd
        exact digitChar_inj m hm n hn (by simpa using hd)
      · simp only [natReprAux, if_pos hm, if_neg hn] at hd
        have hne := natReprAux_ne_nil n (n / 10) (Nat.div_lt_self (by omega) (by omega))
        cases h' : natReprAux n (n / 10) with
        | nil => exact absurd h' hne
        | cons a l =>
            rw [h'] at hd
            simp at hd
      · simp only [natReprAux, if_neg hm, if_pos hn] at hd
        have hne := natReprAux_ne_nil m (m / 10) (Nat.div_lt_self (by omega) (by omega))
        cases h' : natReprAux m (m / 10) with
        | nil => exact absurd h' hne
        | cons a l =>
            rw [h'] at hd
            simp at hd
      · simp only [natReprAux, if_neg hm, if_neg hn] at hd
        have hsplit := List.append_inj' hd rfl
        have hq : m / 10 = n / 10 := by
          have hm10 : m / 10 < m := Nat.div_lt_self (by omega) (by omega)
          have hn10 : n / 10 < n := Nat.div_lt_self (by omega) (by omega)
          apply ih (m / 10) hm10
          have e1 : natReprAux m (m / 10) = natReprAux (m / 10 + 1) (m / 10) :=
            natReprAux_fuel m (m / 10 + 1) (m / 10) hm10 (by omega)
          have e2 : natReprAux n (n / 10) = natReprAux (n / 10 + 1) (n / 10) :=
            natReprAux_fuel n (n / 10 + 1) (n / 10) hn10 (by omega)
          have : natReprAux (m / 10 + 1) (m / 10) = natReprAux (n / 10 + 1) (n / 10) := by
            rw [← e1, ← e2, hsplit.1]
          simpa [natRepr] using congrArg String.mk this
        have hr : m % 10 = n % 10 := by
          have := hsplit.2
          simp at this
          exact digitChar_inj (m % 10) (by omega) (n % 10) (by omega) this
        omega

theorem natRepr_ne_empty (n : Nat) : natRepr n ≠ "" := by
  intro h
  have hd : natReprAux (n + 1) n = [] := by
    have := congrArg String.data h
    simpa [natRepr] using this
  exact natReprAux_ne_nil (n + 1) n (by omega) hd

theorem natRepr_length_pos (n : Nat) : 1 ≤ (natRepr n).length :=
  List.length_pos.mpr (natReprAux_ne_nil (n + 1) n (Nat.lt_succ_self n))

/-! ### String surgery helpers -/

theorem strCancelLeft (s x y : String) (h : s ++ x = s ++ y) : x = y := by
  have hd := congrArg String.data h
  simp only [String.data_append] at hd
  exact String.ext (List.append_cancel_left hd)

theorem strCancelRight (s x y : String) (h : x ++ s = y ++ s) : x = y := by
  have hd := congrArg String.data h
  simp only [String.data_append] at hd
  exact String.ext (List.append_cancel_right hd)

theorem strNeOfHead (s t : String) (h : s.data.head? ≠ t.data.head?) : s ≠ t :=
  fun he => h (by rw [he])

theorem strNeOfLength (s t : String) (h : s.data.length ≠ t.data.length) : s ≠ t :=
  fun he => h (by rw [he])

/-! ### Specification of the sibling-index search -/

theorem candidateAt_inj (c np p : String) (i j : Nat)
    (h : candidateAt c np p i = candidateAt c np p j) : i = j := by
  unfold candidateAt at h
  have h1 := strCancelRight p _ _ h
  have h2 := strCancelRight "]." _ _ h1
  have h3 := strCancelLeft (c ++ np ++ "[") _ _ h2
  exact natRepr_inj i j h3

theorem findSibAux_min (reg : List String) (c np p : String) :
    ∀ fuel i m, i ≤ m → m < findSibAux reg c np p fuel i → candidateAt c np p m ∈ reg := by
  intro fuel
  induction fuel with
  | zero =>
      intro i m h1 h2
      simp only [findSibAux] at h2
      omega
  | succ f ih =>
      intro i m h1 h2
      by_cases h : candidateAt c np p i ∈ reg
      · simp only [findSibAux, if_pos h] at h2
        rcases Nat.eq_or_lt_of_le h1 with he | hlt
        · subst he; exact h
        · exact ih (i + 1) m hlt h2
      · simp only [findSibAux, if_neg h] at h2
        omega

theorem findSibAux_free (reg : List String) (c np p : String) :
    ∀ fuel i, (∃ j, j < fuel ∧ candidateAt c np p (i + j) ∉ reg) →
      candidateAt c np p (findSibAux reg c np p fuel i) ∉ reg := by
  intro fuel
  induction fuel with
  | zero =>
      intro i h
      obtain ⟨j, hj, _⟩ := h
      omega
  | succ f ih =>
      intro i h
      obtain ⟨j, hj, hfree⟩ := h
      by_cases hc : candidateAt c np p i ∈ reg
      · simp only [findSibAux, if_pos hc]
        apply ih (i + 1)
        match j with
        | 0 => exact absurd hc (by simpa using hfree)
        | j' + 1 =>
            refine ⟨j', by omega, ?_⟩
            rw [show i + 1 + j' = i + (j' + 1) by omega]
            exact hfree
      · simpa [findSibAux, if_neg hc] using hc

theorem exists_candidate_free (reg : List String) (c np p : String) :
    ∃ j, j < reg.length + 1 ∧ candidateAt c np p j ∉ reg := by
  by_contra hcon
  push_neg at hcon
  have hinj : Function.Injective (fun j : Nat => candidateAt c np p j) :=
    fun a b h => candidateAt_inj c np p a b h
  have hnd : ((List.range (reg.length + 1)).map fun j => candidateAt c np p j).Nodup :=
    (List.nodup_range (reg.length + 1)).map hinj
  have hsub : ((List.range (reg.length + 1)).map fun j => candidateAt c np p j) ⊆ reg := by
    intro x hx
    rcases List.mem_map.mp hx with ⟨j, hj, rfl⟩
    exact hcon j (List.mem_range.mp hj)
  have hle := (List.subperm_of_subset hnd hsub).length_le
  simp at hle

theorem findSiblingIndex_free (reg : List String) (c np p : String) :
    candidateAt c np p (findSiblingIndex reg c np p) ∉ reg := by
  apply findSibAux_free
  obtain ⟨j, hj, hfree⟩ := exists_candidate_free reg c np p
  exact ⟨j, hj, by simpa using hfree⟩

theorem findSiblingIndex_min (reg : List String) (c np p : String) (m : Nat)
    (h : m < findSiblingIndex reg c np p) : candidateAt c np p m ∈ reg :=
  findSibAux_min reg c np p (reg.length + 1) 0 m (Nat.zero_le m) h

theorem findSiblingIndex_eq (reg : List String) (c np p : String) (k : Nat)
    (hmem : ∀ j, j < k → candidateAt c np p j ∈ reg)
    (hfree : candidateAt c np p k ∉ reg) : findSiblingIndex reg c np p = k := by
  rcases Nat.lt_trichotomy (findSiblingIndex reg c np p) k with h | h | h
  · exact absurd (hmem _ h) (findSiblingIndex_free reg c np p)
  · exact h
  · exact absurd (findSiblingIndex_min reg c np p k h) hfree

theorem regAdd_of_not_mem (reg : List String) (p : String) (h : p ∉ reg) :
    regAdd reg p = reg ++ [p] := by
  simp [regAdd, h]

theorem initLoop_nonwidget (rest : List Frame) (named : Option String) (used : Bool)
    (pfx : String) (reg : List String) (h : ∀ f ∈ rest, isWidgetFrame f = false) :
    initLoop rest named used pfx reg = (pfx, reg) := by
  induction rest with
  | nil => rfl
  | cons f rest ih =>
      cases f with
      | noSelf =>
          simp only [initLoop]
          exact ih (fun f hf => h f (by simp [hf]))
      | widget cls a b =>
          have := h (Frame.widget cls a b) (by simp)
          simp [isWidgetFrame] at this
      | nonWidget => rfl

theorem initLoop_widget_skip (cls : WClass) (rest : List Frame) (named : Option String)
    (used : Bool) (pfx : String) (reg : List String) :
    initLoop (Frame.widget cls false true :: rest) named used pfx reg =
      initLoop rest named used pfx reg := by
  simp [initLoop]

theorem initLoop_widget_ordinary (cls : WClass) (hblend : cls.isBlend = false)
    (rest : List Frame) (named : Option String) (used : Bool) (pfx : String)
    (reg : List String) :
    initLoop (Frame.widget cls false false :: rest) named used pfx reg =
      initLoop rest named true
        (candidateAt cls.name (namedPartOf named used) pfx
          (findSiblingIndex reg cls.name (namedPartOf named used) pfx))
        (regAdd reg (candidateAt cls.name (namedPartOf named used) pfx
          (findSiblingIndex reg cls.name (namedPartOf named used) pfx))) := by
  simp [initLoop, hblend]

theorem initLoop_widget_blend (cls : WClass) (hblend : cls.isBlend = true)
    (rest : List Frame) (named : Option String) (used : Bool) (pfx : String)
    (reg : List String) :
    initLoop (Frame.widget cls false false :: rest) named used pfx reg =
      initLoop rest named true (cls.name ++ namedPartOf named used) reg := by
  simp [initLoop, hblend]

/-! ### Concrete construction scenarios

The stacks below are the `inspect.stack()` shapes produced by the
corresponding Python programs: frame 0 is always `WidgetBase.__init__`
itself (its receiver is the widget being constructed and its current
source line, `for frame in inspect.stack():`, does not contain
`"WidgetBase"`); the subclass `__init__` frame sits on the line
`WidgetBase.__init__(self)`, which does contain `"WidgetBase"` and is
therefore skipped; an enclosing widget's constructor frame sits on the
construction call line; the module frame has no `self`. -/

/-- Root construction of ordinary widget class `A` (stack: own
`WidgetBase.__init__` frame, `A.__init__` frame on the
`WidgetBase.__init__(self)` line, module frame). -/
def aRootC : Construction :=
  ⟨[Frame.widget ⟨"A", false⟩ false false, Frame.widget ⟨"A", false⟩ false true,
    Frame.noSelf], Option.none⟩

/-- Construction of ordinary widget class `B` inside `A.__init__`. -/
def bInA : Construction :=
  ⟨[Frame.widget ⟨"B", false⟩ false false, Frame.widget ⟨"B", false⟩ false true,
    Frame.widget ⟨"A", false⟩ false false, Frame.noSelf], Option.none⟩

/-- Construction of `BlendState` subclass `C` inside `A.__init__`
(frame 1 is `BlendState.__init__` on the `WidgetBase.__init__(self)`
line). -/
def cInA : Construction :=
  ⟨[Frame.widget ⟨"C", true⟩ false false, Frame.widget ⟨"C", true⟩ false true,
    Frame.widget ⟨"A", false⟩ false false, Frame.noSelf], Option.none⟩

/-- Pass for claim C4: `A` constructed at the root, then `n` sibling
constructions of `B` inside `A.__init__`. -/
def c4Pass (n : Nat) : List Construction :=
  aRootC :: List.replicate n bInA

/-- Claim C2: the claim is right and the code is wrong.  `BlendState`'s
own docstring promises that descendants of the class share one state
partition, and the spec promises no sibling index and no dependency on
the enclosing prefix; but the stack walk keeps processing enclosing
frames after the `BlendState` branch, so two instances of `BlendState`
subclass `C` constructed inside root widget `A`'s constructor resolve to
`"A[0].C"` and `"A[1].C"`: distinct prefixes that embed the enclosing
segment and a sibling index, where the claim requires both to be
`"C"`. -/
theorem c2_blendstate_nested_divergence :
    (runPass [aRootC, cInA, cInA] (prepareRegistry [])).1 = ["A[0].", "A[0].C", "A[1].C"]
      ∧ ("A[0].C" : String) ≠ "A[1].C" ∧ ("A[0].C" : String) ≠ "C" := by
  refine ⟨by decide, by decide, by decide⟩

/-- Claim C3, counterexample: in the claim's own scenario (two `B`s
constructed inside root `A`'s constructor) the first `B` resolves to
`"A[0].B[0]."`, not to the claimed shape `"B[0].A[0]."`: the walk
prepends each enclosing frame's segment in FRONT of the accumulated
prefix, so the enclosing segment comes first and the widget's own
segment last. -/
theorem c3_counterexample :
    (runPass [aRootC, bInA, bInA] (prepareRegistry [])).1.get? 1 = some "A[0].B[0]."
      ∧ ("A[0].B[0]." : String) ≠ "B[0].A[0]." := by
  refine ⟨by decide, by decide⟩

/-- Claim C3 as amended: for an ordinary widget constructed with an
enclosing widget present, each processed frame contributes the segment
`TypeName` + optional tag + `[sibling_index]` + `.`, with the
`sibling_index` of each segment the smallest index making the whole
candidate absent from the registry, but segments accumulate with the
widget's OWN segment innermost (rightmost) and the enclosing frame's
segment prepended in front of it; two constructions of `B` inside root
`A`'s constructor yield `"A[0].B[0]."` and `"A[0].B[1]."`. -/
theorem c3_amended_order :
    (runPass [aRootC, bInA, bInA] (prepareRegistry [])).1 =
      ["A[0].", "A[0].B[0].", "A[0].B[1]."] := by
  decide

/-- Claim C7: prefix resolution is deterministic and stable across
passes.  A pass begins with `used_key_prefixes.clear()`
(`prepareRegistry`), so whatever registry state two passes start from,
replaying the same construction sequence yields the same prefix list
(hence the n-th construction of each pass resolves identically). -/
theorem c7_prefix_stability (r1 r2 : List String) (cs : List Construction) :
    (runPass cs (prepareRegistry r1)).1 = (runPass cs (prepareRegistry r2)).1 := rfl

/-- Claim C8: `_get_session_state` on a field whose full key is absent
from the store returns the `None` sentinel; the embedding is a total
function, so no exception is possible. -/
theorem c8_get_absent (st : Store) (pfx f : String)
    (h : dictContains st (fullKey pfx f) = false) : getState st pfx f = Val.none := by
  unfold getState
  rcases hv : dictGet? st (fullKey pfx f) with _ | v
  · rfl
  · rw [dictContains, hv] at h
    simp at h

/-- Claim C8, witness. -/
theorem c8_get_absent_witness :
    dictContains [("other", Val.int 1)] (fullKey "A[0]." "x") = false
      ∧ getState [("other", Val.int 1)] "A[0]." "x" = Val.none :=
  ⟨by decide, c8_get_absent [("other", Val.int 1)] "A[0]." "x" (by decide)⟩

/-- Claim C9: constructing a widget whose stack has no enclosing widget
frame (e.g. in a test, outside any pass) resolves — the embedding is
total, so nothing is thrown — to the root prefix: the widget's own
type-name segment appended to the empty initial prefix (`candidateAt`'s
last component is the initial `self._key_prefix = ""`). -/
theorem c9_root_construction (name : String) (named : Option String) (reg : List String)
    (rest : List Frame) (h : ∀ f ∈ rest, isWidgetFrame f = false) :
    (widgetInit (Frame.widget ⟨name, false⟩ false false :: rest) named reg).1 =
      candidateAt name (namedPartOf named false) ""
        (findSiblingIndex reg name (namedPartOf named false) "") := by
  unfold widgetInit
  rw [initLoop_widget_ordinary ⟨name, false⟩ rfl rest named false "" reg]
  rw [initLoop_nonwidget rest named true _ _ h]

/-- Claim C9, witness: a root construction of `A` with a clean registry
resolves to `"A[0]."`. -/
theorem c9_root_construction_witness :
    (widgetInit [Frame.widget ⟨"A", false⟩ false false, Frame.noSelf] Option.none []).1 =
      candidateAt "A" (namedPartOf Option.none false) ""
        (findSiblingIndex [] "A" (namedPartOf Option.none false) "")
      ∧ (widgetInit [Frame.widget ⟨"A", false⟩ false false, Frame.noSelf]
          Option.none []).1 = "A[0]." :=
  ⟨c9_root_construction "A" Option.none [] [Frame.noSelf] (by decide), by decide⟩

/-- Claim C10: `_set_session_state` writes only the entry at
`full_key(field_name)`: every other key's binding is unchanged;
in particular (the full key being distinct from the reserved persistence
key, as every properly prefixed field key is) the persistence entry is
unchanged, and a key not in the persistence set before the write is
still not in it afterwards. -/
theorem c10_set_state_frame (st : Store) (pfx f : String) (v : Val) (k : String)
    (hk : k ≠ fullKey pfx f) (hp : fullKey pfx f ≠ persistStateKey)
    (hm : persistMem st (fullKey pfx f) = false) :
    dictGet? (setState st pfx f v) k = dictGet? st k
      ∧ dictGet? (setState st pfx f v) persistStateKey = dictGet? st persistStateKey
      ∧ persistMem (setState st pfx f v) (fullKey pfx f) = false := by
  have hpe : dictGet? (setState st pfx f v) persistStateKey = dictGet? st persistStateKey :=
    dictGet?_dictSet_ne st (fullKey pfx f) persistStateKey v fun he => hp he.symm
  refine ⟨dictGet?_dictSet_ne st (fullKey pfx f) k v hk, hpe, ?_⟩
  unfold persistMem at hm ⊢
  rw [hpe]
  exact hm

/-- Claim C10, witness. -/
theorem c10_set_state_frame_witness :
    dictGet? (setState [("z", Val.int 3)] "A[0]." "x" (Val.int 7)) "z" =
        dictGet? [("z", Val.int 3)] "z"
      ∧ dictGet? (setState [("z", Val.int 3)] "A[0]." "x" (Val.int 7)) persistStateKey =
        dictGet? [("z", Val.int 3)] persistStateKey
      ∧ persistMem (setState [("z", Val.int 3)] "A[0]." "x" (Val.int 7))
          (fullKey "A[0]." "x") = false :=
  c10_set_state_frame [("z", Val.int 3)] "A[0]." "x" (Val.int 7) "z"
    (by decide) (by decide) (by decide)

/-! ### The persistence sweep preserves the store -/

theorem prepareStore_preserves_dictGet (st : Store) (hnd : (st.map Prod.fst).Nodup)
    (k : String) : dictGet? (prepareStore st) k = dictGet? st k := by
  unfold prepareStore
  by_cases h : dictContains st persistStateKey = true
  · rw [if_pos h, dictUpdate_id st _ (fun kv hkv =>
      dictGet?_of_mem_nodup st kv hnd (List.mem_filter.mp hkv).1)]
  · rw [if_neg h]

/-- Claim C1, counterexample: with the persistence entry present and the
set `{"a"}`, the entry `("b", 2)`, whose key is neither in the
persistence set nor the persistence key itself, is NOT removed by the
sweep: `prepare` only calls `st.session_state.update(...)`, which
re-assigns the persisted entries and deletes nothing. -/
theorem c1_counterexample :
    dictContains [(persistStateKey, Val.keySet ["a"]), ("a", Val.int 1), ("b", Val.int 2)]
        persistStateKey = true
      ∧ persistMem [(persistStateKey, Val.keySet ["a"]), ("a", Val.int 1), ("b", Val.int 2)]
        "b" = false
      ∧ ("b" : String) ≠ persistStateKey
      ∧ dictGet? (prepareStore
          [(persistStateKey, Val.keySet ["a"]), ("a", Val.int 1), ("b", Val.int 2)]) "b" =
        some (Val.int 2) := by
  refine ⟨by decide, by decide, by decide, by decide⟩

/-- Claim C1 as amended: when the persistence key exists, the pass-start
sweep rewrites (re-assigns) exactly the entries whose key is in the
persistence set with their current values and removes nothing, so every
key's binding — persisted or not — is exactly what it was before the
sweep; the actual dropping of unrendered keys is the host framework's
behaviour, which the rewrite exists to forestall. -/
theorem c1_prepare_preserves_entries (st : Store) (hnd : (st.map Prod.fst).Nodup)
    (hex : dictContains st persistStateKey = true) (k : String) :
    dictGet? (prepareStore st) k = dictGet? st k :=
  prepareStore_preserves_dictGet st hnd k

/-- Claim C1, witness for the amended theorem. -/
theorem c1_prepare_preserves_entries_witness :
    ((([(persistStateKey, Val.keySet ["a"]), ("a", Val.int 1), ("b", Val.int 2)] : Store).map
        Prod.fst).Nodup
      ∧ dictContains [(persistStateKey, Val.keySet ["a"]), ("a", Val.int 1), ("b", Val.int 2)]
          persistStateKey = true)
      ∧ dictGet? (prepareStore
          [(persistStateKey, Val.keySet ["a"]), ("a", Val.int 1), ("b", Val.int 2)]) "b" =
        dictGet? [(persistStateKey, Val.keySet ["a"]), ("a", Val.int 1), ("b", Val.int 2)] "b" :=
  ⟨⟨by decide, by decide⟩,
    c1_prepare_preserves_entries
      [(persistStateKey, Val.keySet ["a"]), ("a", Val.int 1), ("b", Val.int 2)]
      (by decide) (by decide) "b"⟩

/-! ### Effects of `_apply_session_state_defaults` -/

/-- The key set currently stored under the persistence key (empty when
the entry is absent). -/
def psSet (st : Store) : List String :=
  match dictGet? st persistStateKey with
  | some (Val.keySet ks) => ks
  | _ => []

/-- The persistence entry is absent or holds a set — the only shapes the
code ever produces (on any other value Python's `in`/`add` would raise). -/
def persistOk (st : Store) : Prop :=
  dictGet? st persistStateKey = Option.none
    ∨ ∃ ks, dictGet? st persistStateKey = some (Val.keySet ks)

theorem persistMem_eq_psSet (st : Store) (hok : persistOk st) (x : String) :
    persistMem st x = decide (x ∈ psSet st) := by
  unfold persistMem psSet
  rcases hok with h | ⟨ks, h⟩ <;> rw [h] <;> simp

theorem ensure_dictGet_ne (st : Store) (k : String) (hk : k ≠ persistStateKey) :
    dictGet? (ensurePersistEntry st) k = dictGet? st k := by
  unfold ensurePersistEntry
  by_cases h : dictContains st persistStateKey = true
  · rw [if_pos h]
  · rw [if_neg h]
    exact dictGet?_dictSet_ne st persistStateKey k (Val.keySet []) hk

theorem persistAdd_dictGet_ne (st : Store) (x k : String) (hk : k ≠ persistStateKey) :
    dictGet? (persistAdd st x) k = dictGet? st k := by
  unfold persistAdd
  rcases h : dictGet? st persistStateKey with _ | v
  · rfl
  · cases v with
    | keySet ks => exact dictGet?_dictSet_ne st persistStateKey k _ hk
    | none => rfl
    | int _ => rfl
    | str _ => rfl
    | bool _ => rfl

theorem ensure_dictGet_pk (st : Store) (hok : persistOk st) :
    dictGet? (ensurePersistEntry st) persistStateKey = some (Val.keySet (psSet st)) := by
  unfold ensurePersistEntry psSet
  rcases hok with h | ⟨ks, h⟩
  · rw [h, if_neg (by simp [dictContains, h]), dictGet?_dictSet_self]
  · rw [h, if_pos (by simp [dictContains, h]), h]

theorem persistAdd_dictGet_pk (st : Store) (x : String) (ks : List String)
    (h : dictGet? st persistStateKey = some (Val.keySet ks)) :
    dictGet? (persistAdd st x) persistStateKey = some (Val.keySet (setAdd ks x)) := by
  unfold persistAdd
  rw [h]
  exact dictGet?_dictSet_self st persistStateKey _

theorem applyOne_of_present (st : Store) (fk : String) (v : Val)
    (hc : dictContains st fk = true) : applyOne st fk v = st := by
  unfold applyOne
  rw [if_pos hc]

theorem applyOne_dictGet_pk (st : Store) (fk : String) (v : Val) (hok : persistOk st)
    (hk : fk ≠ persistStateKey) (hc : dictContains st fk = false) :
    dictGet? (applyOne st fk v) persistStateKey = some (Val.keySet (setAdd (psSet st) fk)) := by
  unfold applyOne
  rw [if_neg (by simp [hc])]
  rw [dictGet?_dictSet_ne _ fk persistStateKey v (fun he => hk he.symm)]
  exact persistAdd_dictGet_pk _ fk (psSet st) (ensure_dictGet_pk st hok)

theorem applyOne_dictGet_self (st : Store) (fk : String) (v : Val)
    (hc : dictContains st fk = false) :
    dictGet? (applyOne st fk v) fk = some v := by
  unfold applyOne
  rw [if_neg (by simp [hc])]
  exact dictGet?_dictSet_self _ fk v

theorem applyOne_dictGet_ne (st : Store) (fk : String) (v : Val) (k : String)
    (h1 : k ≠ fk) (h2 : k ≠ persistStateKey) :
    dictGet? (applyOne st fk v) k = dictGet? st k := by
  unfold applyOne
  by_cases hc : dictContains st fk = true
  · rw [if_pos hc]
  · rw [if_neg hc, dictGet?_dictSet_ne _ fk k v h1, persistAdd_dictGet_ne _ fk k h2,
      ensure_dictGet_ne st k h2]

theorem applyOne_persistOk (st : Store) (fk : String) (v : Val) (hok : persistOk st)
    (hk : fk ≠ persistStateKey) : persistOk (applyOne st fk v) := by
  by_cases hc : dictContains st fk = true
  · rw [applyOne_of_present st fk v hc]; exact hok
  · right
    exact ⟨setAdd (psSet st) fk,
      applyOne_dictGet_pk st fk v hok hk (by simpa using hc)⟩

theorem applyOne_contains_mono (st : Store) (fk : String) (v : Val) (k : String)
    (h : dictContains st k = true) : dictContains (applyOne st fk v) k = true := by
  by_cases hc : dictContains st fk = true
  · rw [applyOne_of_present st fk v hc]; exact h
  · unfold applyOne
    rw [if_neg hc]
    apply dictContains_dictSet_mono
    by_cases hk : k = persistStateKey
    · subst hk
      unfold dictContains
      rcases hok : dictGet? (ensurePersistEntry st) persistStateKey with _ | v'
      · exfalso
        unfold ensurePersistEntry at hok
        by_cases h2 : dictContains st persistStateKey = true
        · rw [if_pos h2] at hok
          rw [dictContains, hok] at h2
          simp at h2
        · rw [if_neg h2, dictGet?_dictSet_self] at hok
          simp at hok
      · unfold persistAdd
        rw [hok]
        cases v' with
        | keySet ks => simp [dictContains, dictGet?_dictSet_self]
        | none => simp [dictContains, hok]
        | int _ => simp [dictContains, hok]
        | str _ => simp [dictContains, hok]
        | bool _ => simp [dictContains, hok]
    · unfold dictContains
      rw [persistAdd_dictGet_ne _ fk k hk, ensure_dictGet_ne st k hk]
      exact h

theorem applyOne_persistMem_mono (st : Store) (fk : String) (v : Val) (x : String)
    (hk : fk ≠ persistStateKey) (h : persistMem st x = true) :
    persistMem (applyOne st fk v) x = true := by
  have hok : persistOk st := by
    unfold persistMem at h
    rcases h2 : dictGet? st persistStateKey with _ | v'
    · rw [h2] at h; simp at h
    · cases v' with
      | keySet ks => exact Or.inr ⟨ks, h2⟩
      | none => rw [h2] at h; simp at h
      | int _ => rw [h2] at h; simp at h
      | str _ => rw [h2] at h; simp at h
      | bool _ => rw [h2] at h; simp at h
  by_cases hc : dictContains st fk = true
  · rw [applyOne_of_present st fk v hc]; exact h
  · rw [persistMem_eq_psSet st hok x] at h
    have hpk := applyOne_dictGet_pk st fk v hok hk (by simpa using hc)
    unfold persistMem
    rw [hpk]
    simp only [decide_eq_true_eq] at h ⊢
    unfold setAdd
    by_cases hm : fk ∈ psSet st
    · rw [if_pos hm]; exact h
    · rw [if_neg hm]; exact List.mem_append_left _ h

theorem setAdd_mem_iff (l : List String) (y x : String) :
    x ∈ setAdd l y ↔ x ∈ l ∨ x = y := by
  unfold setAdd
  by_cases hm : y ∈ l
  · rw [if_pos hm]
    exact ⟨Or.inl, fun h => h.elim id (fun he => he ▸ hm)⟩
  · rw [if_neg hm]
    simp

theorem applyOne_contains_self (st : Store) (fk : String) (v : Val) :
    dictContains (applyOne st fk v) fk = true := by
  by_cases hc : dictContains st fk = true
  · rw [applyOne_of_present st fk v hc]; exact hc
  · unfold applyOne
    rw [if_neg hc]
    exact dictContains_dictSet_self _ fk v

theorem applyDefaults_contains_mono (pfx : String) :
    ∀ (ds : List (String × Val)) (st : Store) (k : String),
      dictContains st k = true → dictContains (applyDefaults st pfx ds) k = true := by
  intro ds
  induction ds with
  | nil => intro st k h; exact h
  | cons kv rest ih =>
      intro st k h
      exact ih (applyOne st (fullKey pfx kv.1) kv.2) k
        (applyOne_contains_mono st (fullKey pfx kv.1) kv.2 k h)

theorem applyDefaults_persistMem_mono (pfx : String) :
    ∀ (ds : List (String × Val)) (st : Store) (x : String),
      (∀ kv ∈ ds, fullKey pfx kv.1 ≠ persistStateKey) →
      persistMem st x = true → persistMem (applyDefaults st pfx ds) x = true := by
  intro ds
  induction ds with
  | nil => intro st x _ h; exact h
  | cons kv rest ih =>
      intro st x hks h
      exact ih (applyOne st (fullKey pfx kv.1) kv.2) x
        (fun kv' h' => hks kv' (by simp [h']))
        (applyOne_persistMem_mono st (fullKey pfx kv.1) kv.2 x (hks kv (by simp)) h)

theorem applyDefaults_persistOk (pfx : String) :
    ∀ (ds : List (String × Val)) (st : Store),
      (∀ kv ∈ ds, fullKey pfx kv.1 ≠ persistStateKey) →
      persistOk st → persistOk (applyDefaults st pfx ds) := by
  intro ds
  induction ds with
  | nil => intro st _ hok; exact hok
  | cons kv rest ih =>
      intro st hks hok
      exact ih (applyOne st (fullKey pfx kv.1) kv.2)
        (fun kv' h' => hks kv' (by simp [h']))
        (applyOne_persistOk st (fullKey pfx kv.1) kv.2 hok (hks kv (by simp)))

theorem applyOne_contains_ne (st : Store) (fk : String) (v : Val) (k : String)
    (h1 : k ≠ fk) (h2 : k ≠ persistStateKey) :
    dictContains (applyOne st fk v) k = dictContains st k := by
  unfold dictContains
  rw [applyOne_dictGet_ne st fk v k h1 h2]

theorem applyDefaults_dictGet_present (pfx : String) :
    ∀ (ds : List (String × Val)) (st : Store) (k : String),
      (∀ kv ∈ ds, fullKey pfx kv.1 ≠ persistStateKey) →
      k ≠ persistStateKey → dictContains st k = true →
      dictGet? (applyDefaults st pfx ds) k = dictGet? st k := by
  intro ds
  induction ds with
  | nil => intro st k _ _ _; rfl
  | cons kv rest ih =>
      intro st k hks hkp hc
      by_cases hfk : dictContains st (fullKey pfx kv.1) = true
      · show dictGet? (applyDefaults (applyOne st (fullKey pfx kv.1) kv.2) pfx rest) k =
          dictGet? st k
        rw [applyOne_of_present st _ kv.2 hfk]
        exact ih st k (fun kv' h' => hks kv' (by simp [h'])) hkp hc
      · have hne : k ≠ fullKey pfx kv.1 := fun he => hfk (he ▸ hc)
        have e1 : dictGet? (applyOne st (fullKey pfx kv.1) kv.2) k = dictGet? st k :=
          applyOne_dictGet_ne st _ kv.2 k hne hkp
        have hc1 : dictContains (applyOne st (fullKey pfx kv.1) kv.2) k = true :=
          applyOne_contains_mono st _ kv.2 k hc
        show dictGet? (applyDefaults (applyOne st (fullKey pfx kv.1) kv.2) pfx rest) k =
          dictGet? st k
        rw [ih (applyOne st (fullKey pfx kv.1) kv.2) k
          (fun kv' h' => hks kv' (by simp [h'])) hkp hc1, e1]

theorem applyDefaults_records (pfx : String) :
    ∀ (ds : List (String × Val)) (st : Store) (kv : String × Val), kv ∈ ds →
      (∀ kv' ∈ ds, fullKey pfx kv'.1 ≠ persistStateKey) → persistOk st →
      dictContains st (fullKey pfx kv.1) = false →
      persistMem (applyDefaults st pfx ds) (fullKey pfx kv.1) = true := by
  intro ds
  induction ds with
  | nil => intro st kv h; simp at h
  | cons kv' rest ih =>
      intro st kv hm hks hok hc
      by_cases hsame : fullKey pfx kv.1 = fullKey pfx kv'.1
      · have hc' : dictContains st (fullKey pfx kv'.1) = false := hsame ▸ hc
        have hk' : fullKey pfx kv'.1 ≠ persistStateKey := hks kv' (by simp)
        have hmem1 : persistMem (applyOne st (fullKey pfx kv'.1) kv'.2)
            (fullKey pfx kv.1) = true := by
          unfold persistMem
          rw [applyOne_dictGet_pk st _ kv'.2 hok hk' hc']
          rw [hsame]
          simp [setAdd_mem_iff]
        exact applyDefaults_persistMem_mono pfx rest _ _
          (fun kv2 h2 => hks kv2 (by simp [h2])) hmem1
      · have hmem : kv ∈ rest := by
          rcases List.mem_cons.mp hm with he | hr
          · exact absurd (congrArg (fun z => fullKey pfx z.1) he) hsame
          · exact hr
        by_cases hfk : dictContains st (fullKey pfx kv'.1) = true
        · show persistMem (applyDefaults (applyOne st (fullKey pfx kv'.1) kv'.2) pfx rest)
            (fullKey pfx kv.1) = true
          rw [applyOne_of_present st _ kv'.2 hfk]
          exact ih st kv hmem (fun kv2 h2 => hks kv2 (by simp [h2])) hok hc
        · have hk' : fullKey pfx kv'.1 ≠ persistStateKey := hks kv' (by simp)
          have hkp : fullKey pfx kv.1 ≠ persistStateKey := hks kv (by simp [hmem])
          have hc1 : dictContains (applyOne st (fullKey pfx kv'.1) kv'.2)
              (fullKey pfx kv.1) = false := by
            rw [applyOne_contains_ne st _ kv'.2 _ hsame hkp]
            exact hc
          exact ih (applyOne st (fullKey pfx kv'.1) kv'.2) kv hmem
            (fun kv2 h2 => hks kv2 (by simp [h2]))
            (applyOne_persistOk st _ kv'.2 hok hk') hc1

theorem applyDefaults_records_only (pfx : String) :
    ∀ (ds : List (String × Val)) (st : Store) (x : String),
      (∀ kv ∈ ds, fullKey pfx kv.1 ≠ persistStateKey) → persistOk st →
      persistMem (applyDefaults st pfx ds) x = true →
      persistMem st x = true
        ∨ (dictContains st x = false ∧ ∃ kv ∈ ds, x = fullKey pfx kv.1) := by
  intro ds
  induction ds with
  | nil => intro st x _ _ h; exact Or.inl h
  | cons kv rest ih =>
      intro st x hks hok h
      by_cases hfk : dictContains st (fullKey pfx kv.1) = true
      · rw [show applyDefaults st pfx (kv :: rest) =
            applyDefaults (applyOne st (fullKey pfx kv.1) kv.2) pfx rest from rfl,
          applyOne_of_present st _ kv.2 hfk] at h
        rcases ih st x (fun kv' h' => hks kv' (by simp [h'])) hok h with h1 | ⟨h2, kv', h3, h4⟩
        · exact Or.inl h1
        · exact Or.inr ⟨h2, kv', by simp [h3], h4⟩
      · have hk' : fullKey pfx kv.1 ≠ persistStateKey := hks kv (by simp)
        have hc' : dictContains st (fullKey pfx kv.1) = false := by simpa using hfk
        have hok1 := applyOne_persistOk st _ kv.2 hok hk'
        rcases ih (applyOne st (fullKey pfx kv.1) kv.2) x
            (fun kv' h' => hks kv' (by simp [h'])) hok1 h with h1 | ⟨h2, kv', h3, h4⟩
        · unfold persistMem at h1
          rw [applyOne_dictGet_pk st _ kv.2 hok hk' hc'] at h1
          simp only [decide_eq_true_eq, setAdd_mem_iff] at h1
          rcases h1 with hin | heq
          · left
            rw [persistMem_eq_psSet st hok x]
            simpa using hin
          · exact Or.inr ⟨heq ▸ hc', kv, by simp, heq⟩
        · refine Or.inr ⟨?_, kv', by simp [h3], h4⟩
          by_cases hcx : dictContains st x = true
          · have hmono := applyOne_contains_mono st (fullKey pfx kv.1) kv.2 x hcx
            rw [h2] at hmono
            simp at hmono
          · simpa using hcx

theorem applyDefaults_contains_after (pfx : String) :
    ∀ (ds : List (String × Val)) (st : Store) (kv : String × Val), kv ∈ ds →
      dictContains (applyDefaults st pfx ds) (fullKey pfx kv.1) = true := by
  intro ds
  induction ds with
  | nil => intro st kv h; simp at h
  | cons kv' rest ih =>
      intro st kv hm
      rcases List.mem_cons.mp hm with he | hr
      · subst he
        exact applyDefaults_contains_mono pfx rest _ _
          (applyOne_contains_self st (fullKey pfx kv.1) kv.2)
      · exact ih (applyOne st (fullKey pfx kv'.1) kv'.2) kv hr

theorem applyDefaults_id (pfx : String) :
    ∀ (ds : List (String × Val)) (st : Store),
      (∀ kv ∈ ds, dictContains st (fullKey pfx kv.1) = true) →
      applyDefaults st pfx ds = st := by
  intro ds
  induction ds with
  | nil => intro st _; rfl
  | cons kv rest ih =>
      intro st h
      show applyDefaults (applyOne st (fullKey pfx kv.1) kv.2) pfx rest = st
      rw [applyOne_of_present st _ kv.2 (h kv (by simp))]
      exact ih st (fun kv' h' => h kv' (by simp [h']))

/-- Claim C5: `_apply_session_state_defaults` (i) never overwrites a
field whose full key is already present (its binding is unchanged), (ii)
records into the persistence set the full key of every field it defaults
into existence, (iii) records nothing else (any new persistence-set
member is a previously absent key of the mapping), and (iv) is
idempotent: a second run with the same mapping changes nothing.
Hypotheses: the widget's field keys are distinct from the reserved
persistence key (true of every prefixed key), and the persistence entry
is absent or a set (the only shapes the code produces). -/
theorem c5_apply_defaults (st : Store) (pfx : String) (ds : List (String × Val))
    (hks : ∀ kv ∈ ds, fullKey pfx kv.1 ≠ persistStateKey) (hok : persistOk st) :
    (∀ k, k ≠ persistStateKey → dictContains st k = true →
        dictGet? (applyDefaults st pfx ds) k = dictGet? st k)
      ∧ (∀ kv ∈ ds, dictContains st (fullKey pfx kv.1) = false →
        persistMem (applyDefaults st pfx ds) (fullKey pfx kv.1) = true)
      ∧ (∀ x, persistMem (applyDefaults st pfx ds) x = true →
        persistMem st x = true
          ∨ (dictContains st x = false ∧ ∃ kv ∈ ds, x = fullKey pfx kv.1))
      ∧ applyDefaults (applyDefaults st pfx ds) pfx ds = applyDefaults st pfx ds := by
  refine ⟨fun k hk hc => applyDefaults_dictGet_present pfx ds st k hks hk hc,
    fun kv hm hc => applyDefaults_records pfx ds st kv hm hks hok hc,
    fun x hx => applyDefaults_records_only pfx ds st x hks hok hx,
    applyDefaults_id pfx ds _ (fun kv hm => applyDefaults_contains_after pfx ds st kv hm)⟩

/-- Claim C5, witness: a store holding one field, defaults for a present
and an absent field. -/
theorem c5_apply_defaults_witness :
    dictGet? (applyDefaults [("A[0].y", Val.int 1)] "A[0]." [("y", Val.int 9), ("x", Val.int 5)])
        "A[0].y" = dictGet? [("A[0].y", Val.int 1)] "A[0].y"
      ∧ persistMem (applyDefaults [("A[0].y", Val.int 1)] "A[0]."
          [("y", Val.int 9), ("x", Val.int 5)]) (fullKey "A[0]." "x") = true
      ∧ (persistMem [("A[0].y", Val.int 1)] "A[0].x" = true
          ∨ (dictContains [("A[0].y", Val.int 1)] "A[0].x" = false
            ∧ ∃ kv ∈ ([("y", Val.int 9), ("x", Val.int 5)] : List (String × Val)),
                ("A[0].x" : String) = fullKey "A[0]." kv.1))
      ∧ applyDefaults (applyDefaults [("A[0].y", Val.int 1)] "A[0]."
            [("y", Val.int 9), ("x", Val.int 5)]) "A[0]." [("y", Val.int 9), ("x", Val.int 5)] =
          applyDefaults [("A[0].y", Val.int 1)] "A[0]." [("y", Val.int 9), ("x", Val.int 5)] := by
  have h := c5_apply_defaults [("A[0].y", Val.int 1)] "A[0]." [("y", Val.int 9), ("x", Val.int 5)]
    (by decide) (Or.inl (by decide))
  exact ⟨h.1 "A[0].y" (by decide) (by decide),
    h.2.1 ("x", Val.int 5) (by simp) (by decide),
    h.2.2.1 "A[0].x" (by decide),
    h.2.2.2⟩

/-- Claim C6: after `set_state(f, v)`, `get_state(f)` returns `v`; the
value also survives the next pass's persistence sweep (which rewrites
persisted entries with their current values and deletes nothing) and a
subsequent `apply_defaults` for `f` does not revert it, because the key
is present.  The persistence-set membership hypothesis mirrors the
claim's "while full_key(f) is in the PersistenceSet" condition. -/
theorem c6_set_get_persist (st : Store) (pfx f : String) (v d : Val)
    (hnd : (st.map Prod.fst).Nodup)
    (hpm : persistMem (setState st pfx f v) (fullKey pfx f) = true) :
    getState (setState st pfx f v) pfx f = v
      ∧ getState (prepareStore (setState st pfx f v)) pfx f = v
      ∧ getState (applyDefaults (prepareStore (setState st pfx f v)) pfx [(f, d)]) pfx f = v := by
  have hnd1 : ((setState st pfx f v).map Prod.fst).Nodup :=
    dictSet_keys_nodup st (fullKey pfx f) v hnd
  have hget : dictGet? (prepareStore (setState st pfx f v)) (fullKey pfx f) = some v := by
    rw [prepareStore_preserves_dictGet (setState st pfx f v) hnd1 (fullKey pfx f)]
    exact dictGet?_dictSet_self st (fullKey pfx f) v
  have hcontains : dictContains (prepareStore (setState st pfx f v)) (fullKey pfx f) = true := by
    rw [dictContains, hget]
    rfl
  refine ⟨?_, ?_, ?_⟩
  · unfold getState setState
    rw [dictGet?_dictSet_self]
  · unfold getState
    rw [hget]
  · have hid : applyDefaults (prepareStore (setState st pfx f v)) pfx [(f, d)] =
        prepareStore (setState st pfx f v) := by
      apply applyDefaults_id
      intro kv hm
      rcases List.mem_cons.mp hm with he | hr
      · subst he; exact hcontains
      · simp at hr
    rw [hid]
    unfold getState
    rw [hget]

/-- Claim C6, witness: a user-set value 7 survives the sweep and a
default of 5. -/
theorem c6_set_get_persist_witness :
    getState (setState [(persistStateKey, Val.keySet ["A[0].x"])] "A[0]." "x" (Val.int 7))
        "A[0]." "x" = Val.int 7
      ∧ getState (prepareStore (setState [(persistStateKey, Val.keySet ["A[0].x"])]
          "A[0]." "x" (Val.int 7))) "A[0]." "x" = Val.int 7
      ∧ getState (applyDefaults (prepareStore (setState [(persistStateKey, Val.keySet ["A[0].x"])]
          "A[0]." "x" (Val.int 7))) "A[0]." [("x", Val.int 5)]) "A[0]." "x" = Val.int 7 :=
  c6_set_get_persist [(persistStateKey, Val.keySet ["A[0].x"])] "A[0]." "x"
    (Val.int 7) (Val.int 5) (by decide) (by decide)

/-! ### Claim C4: sibling indices over an arbitrary number of siblings

`bSeg k` is the candidate the k-th `B` builds at its own frame, and
`abSeg k` the final prefix after `A`'s enclosing frame is processed;
`regAfter k` is `used_key_prefixes` after `A`'s construction and `k`
constructions of `B` (the walk registers both the intermediate and the
final candidate of each construction). -/

def bSeg (k : Nat) : String := candidateAt "B" "" "" k

def abSeg (k : Nat) : String := candidateAt "A" "" (bSeg k) 0

def regAfter : Nat → List String
  | 0 => ["A[0]."]
  | k + 1 => regAfter k ++ [bSeg k, abSeg k]

theorem bSeg_data (k : Nat) :
    (bSeg k).data = 'B' :: '[' :: ((natRepr k).data ++ [']', '.']) := by
  have h1 : ("B" : String).data = ['B'] := rfl
  have h2 : ("" : String).data = [] := rfl
  have h3 : ("[" : String).data = ['['] := rfl
  have h4 : ("]." : String).data = [']', '.'] := rfl
  simp [bSeg, candidateAt, String.data_append, h1, h2, h3, h4]

theorem abSeg_data (k : Nat) :
    (abSeg k).data = 'A' :: '[' :: '0' :: ']' :: '.' :: (bSeg k).data := by
  have h1 : ("A" : String).data = ['A'] := rfl
  have h2 : ("" : String).data = [] := rfl
  have h3 : ("[" : String).data = ['['] := rfl
  have h4 : ("]." : String).data = [']', '.'] := rfl
  have h5 : (natRepr 0).data = ['0'] := rfl
  simp [abSeg, candidateAt, String.data_append, h1, h2, h3, h4, h5]

theorem bSeg_inj (j k : Nat) (h : bSeg j = bSeg k) : j = k :=
  candidateAt_inj "B" "" "" j k h

theorem abSeg_inj (j k : Nat) (h : abSeg j = abSeg k) : j = k := by
  have hd := congrArg String.data h
  rw [abSeg_data, abSeg_data] at hd
  simp only [List.cons.injEq, true_and] at hd
  exact bSeg_inj j k (String.ext hd)

theorem bSeg_ne_A0 (k : Nat) : bSeg k ≠ "A[0]." := by
  apply strNeOfHead
  rw [bSeg_data]
  intro h
  simp at h

theorem bSeg_ne_abSeg (j k : Nat) : bSeg j ≠ abSeg k := by
  apply strNeOfHead
  rw [bSeg_data, abSeg_data]
  intro h
  simp at h

theorem bSeg_data_length (k : Nat) : (bSeg k).data.length = 4 + (natRepr k).data.length := by
  rw [bSeg_data]
  simp
  omega

theorem abSeg_ne_A0 (k : Nat) : abSeg k ≠ "A[0]." := by
  apply strNeOfLength
  rw [abSeg_data]
  have h1 := natRepr_length_pos k
  have h2 : (natRepr k).length = (natRepr k).data.length := rfl
  have h3 := bSeg_data_length k
  have h4 : ("A[0]." : String).data.length = 5 := rfl
  simp only [List.length_cons, h4]
  omega

theorem mem_regAfter (k : Nat) (x : String) :
    x ∈ regAfter k ↔ x = "A[0]." ∨ ∃ j, j < k ∧ (x = bSeg j ∨ x = abSeg j) := by
  induction k with
  | zero => simp [regAfter]
  | succ k ih =>
      simp only [regAfter, List.mem_append, ih, List.mem_cons, List.mem_singleton]
      constructor
      · rintro ((h | ⟨j, hj, hx⟩) | h | h | h)
        · exact Or.inl h
        · exact Or.inr ⟨j, by omega, hx⟩
        · exact Or.inr ⟨k, by omega, Or.inl h⟩
        · exact Or.inr ⟨k, by omega, Or.inr h⟩
        · simp at h
      · rintro (h | ⟨j, hj, hx⟩)
        · exact Or.inl (Or.inl h)
        · by_cases hjk : j < k
          · exact Or.inl (Or.inr ⟨j, hjk, hx⟩)
          · have : j = k := by omega
            subst this
            rcases hx with hx | hx
            · exact Or.inr (Or.inl hx)
            · exact Or.inr (Or.inr (Or.inl hx))

theorem bSeg_not_mem_regAfter (k : Nat) : bSeg k ∉ regAfter k := by
  rw [mem_regAfter]
  rintro (h | ⟨j, hj, h | h⟩)
  · exact bSeg_ne_A0 k h
  · exact absurd (bSeg_inj k j h) (by omega)
  · exact bSeg_ne_abSeg k j h

theorem bSeg_mem_regAfter (j k : Nat) (h : j < k) : bSeg j ∈ regAfter k :=
  (mem_regAfter k (bSeg j)).mpr (Or.inr ⟨j, h, Or.inl rfl⟩)

theorem abSeg_not_mem (k : Nat) : abSeg k ∉ regAfter k ++ [bSeg k] := by
  rw [List.mem_append, mem_regAfter]
  rintro ((h | ⟨j, hj, h | h⟩) | h)
  · exact abSeg_ne_A0 k h
  · exact bSeg_ne_abSeg j k h.symm
  · exact absurd (abSeg_inj k j h) (by omega)
  · simp at h
    exact bSeg_ne_abSeg k k h.symm

theorem bInA_step (k : Nat) : runConstr (regAfter k) bInA = (abSeg k, regAfter (k + 1)) := by
  have hi1 : findSiblingIndex (regAfter k) "B" "" "" = k := by
    apply findSiblingIndex_eq
    · intro j hj
      exact bSeg_mem_regAfter j k hj
    · exact bSeg_not_mem_regAfter k
  have hreg1 : regAdd (regAfter k) (bSeg k) = regAfter k ++ [bSeg k] :=
    regAdd_of_not_mem _ _ (bSeg_not_mem_regAfter k)
  have hi2 : findSiblingIndex (regAfter k ++ [bSeg k]) "A" "" (bSeg k) = 0 := by
    apply findSiblingIndex_eq
    · intro j hj
      omega
    · exact abSeg_not_mem k
  have hreg2 : regAdd (regAfter k ++ [bSeg k]) (abSeg k) =
      (regAfter k ++ [bSeg k]) ++ [abSeg k] :=
    regAdd_of_not_mem _ _ (abSeg_not_mem k)
  show widgetInit bInA.stack bInA.named (regAfter k) = (abSeg k, regAfter (k + 1))
  simp only [bInA, widgetInit]
  rw [initLoop_widget_ordinary ⟨"B", false⟩ rfl]
  simp only [namedPartOf]
  rw [hi1]
  rw [show candidateAt "B" "" "" k = bSeg k from rfl]
  rw [hreg1]
  rw [initLoop_widget_skip]
  rw [initLoop_widget_ordinary ⟨"A", false⟩ rfl]
  simp only [namedPartOf]
  rw [hi2]
  rw [show candidateAt "A" "" (bSeg k) 0 = abSeg k from rfl]
  rw [hreg2]
  simp [initLoop, regAfter]

theorem runPass_replicate_bInA (m : Nat) :
    ∀ k, runPass (List.replicate m bInA) (regAfter k) =
      ((List.range m).map (fun j => abSeg (k + j)), regAfter (k + m)) := by
  induction m with
  | zero => intro k; simp [runPass]
  | succ m ih =>
      intro k
      rw [List.replicate_succ]
      show ((runConstr (regAfter k) bInA).1 ::
          (runPass (List.replicate m bInA) (runConstr (regAfter k) bInA).2).1,
        (runPass (List.replicate m bInA) (runConstr (regAfter k) bInA).2).2) = _
      rw [bInA_step k]
      simp only
      rw [ih (k + 1)]
      have hrange : (List.range (m + 1)).map (fun j => abSeg (k + j)) =
          abSeg k :: (List.range m).map (fun j => abSeg (k + 1 + j)) := by
        rw [List.range_succ_eq_map]
        simp only [List.map_cons, List.map_map]
        refine congrArg₂ _ (by rw [Nat.add_zero]) ?_
        apply List.map_congr_left
        intro j _
        simp only [Function.comp_apply]
        exact congrArg abSeg (by omega)
      rw [hrange]
      have : k + 1 + m = k + (m + 1) := by omega
      rw [this]

theorem abSeg_spell (k : Nat) : abSeg k = "A[0]." ++ ("B[" ++ natRepr k ++ "].") := by
  apply String.ext
  rw [abSeg_data, bSeg_data]
  have h1 : ("A[0]." : String).data = ['A', '[', '0', ']', '.'] := rfl
  have h2 : ("B[" : String).data = ['B', '['] := rfl
  have h3 : ("]." : String).data = [']', '.'] := rfl
  simp [String.data_append, h1, h2, h3]

/-- Claim C4: with the KeyRegistry reset at pass start, a pass that
constructs `A` at the root and then `n` sibling `B`s inside `A`'s
constructor resolves the k-th `B` (0-based, construction order) to the
prefix `"A[0]." ++ "B[" ++ str(k) ++ "]."` — its sibling-index suffix is
exactly `k` — and all resolved prefixes of the pass are pairwise
distinct. -/
theorem c4_sibling_indices (r : List String) (n : Nat) :
    (runPass (c4Pass n) (prepareRegistry r)).1 =
      "A[0]." :: (List.range n).map (fun k => "A[0]." ++ ("B[" ++ natRepr k ++ "]."))
      ∧ List.Pairwise (fun a b => a ≠ b) ((runPass (c4Pass n) (prepareRegistry r)).1) := by
  have h0 : runConstr (prepareRegistry r) aRootC = ("A[0].", regAfter 0) := by
    show runConstr [] aRootC = ("A[0].", regAfter 0)
    decide
  have hfull : runPass (c4Pass n) (prepareRegistry r) =
      ("A[0]." :: (List.range n).map (fun j => abSeg (0 + j)), regAfter (0 + n)) := by
    show ((runConstr (prepareRegistry r) aRootC).1 ::
        (runPass (List.replicate n bInA) (runConstr (prepareRegistry r) aRootC).2).1,
      (runPass (List.replicate n bInA) (runConstr (prepareRegistry r) aRootC).2).2) = _
    rw [h0]
    simp only
    rw [runPass_replicate_bInA n 0]
  have hmap : (List.range n).map (fun j => abSeg (0 + j)) =
      (List.range n).map (fun k => "A[0]." ++ ("B[" ++ natRepr k ++ "].")) := by
    apply List.map_congr_left
    intro j _
    rw [Nat.zero_add, abSeg_spell]
  constructor
  · rw [hfull]
    simp only
    rw [hmap]
  · rw [hfull]
    simp only
    apply List.pairwise_cons.mpr
    constructor
    · intro b hb
      rcases List.mem_map.mp hb with ⟨j, _, rfl⟩
      exact fun he => abSeg_ne_A0 (0 + j) he.symm
    · have hinj : Function.Injective (fun j : Nat => abSeg (0 + j)) := by
        intro a b h
        have := abSeg_inj (0 + a) (0 + b) h
        omega
      exact (List.nodup_range n).map hinj
